import Mathlib

/-!
Verification of the webworker-typed RPC layer (src/index.ts, plus the legacy
module src/unnamed/part_000) against its natural-language specification.

The development shallowly embeds the protocol code:

* JavaScript runtime values exchanged by the protocol are modelled by the
  inductive type `JSVal`.  Function values are identified by a numeric id
  (`vFun fid`); the two kinds of stub closures created by the router
  (`wrapper` at index.ts:110 and the arrow closure returned by `tryObj2fn`
  at index.ts:79) are modelled by dedicated constructors so that their
  distinct invocation behaviour can be stated.
* The WeakSet / Map / WeakMap mutations are explicit state passing over
  association lists.
* `getTransferableObjects` (index.ts:46) works on an object *graph* (a heap
  of nodes addressed by numeric identity), since its behaviour under shared
  references and cycles is exactly what the spec describes.
* Handler invocation is an oracle `env : Nat → List JSVal → Except JSVal JSVal`
  (a handler applied to arguments either returns a value or throws a value).
-/

namespace WWT

/-! ## Association list primitives (model of JS `Map.set` / `Map.get` /
`Map.delete`, preserving insertion order as JS Maps do). -/

/-- JS `map.get k`: first entry for key `k`, if any. -/
def getAssoc {α β : Type} [BEq α] : List (α × β) → α → Option β
  | [], _ => none
  | (k', v) :: rest, k => if k' == k then some v else getAssoc rest k

/-- JS `map.set k v`: overwrite the existing entry for `k`, else append. -/
def setAssoc {α β : Type} [BEq α] : List (α × β) → α → β → List (α × β)
  | [], k, v => [(k, v)]
  | (k', v') :: rest, k, v =>
      if k' == k then (k', v) :: rest else (k', v') :: setAssoc rest k v

/-- JS `map.delete k`: remove the entry for `k` (no-op when absent). -/
def delAssoc {α β : Type} [BEq α] (l : List (α × β)) (k : α) : List (α × β) :=
  l.filter (fun p => !(p.1 == k))

theorem getAssoc_setAssoc_self {α β : Type} [BEq α] [LawfulBEq α]
    (l : List (α × β)) (k : α) (v : β) : getAssoc (setAssoc l k v) k = some v := by
  induction l with
  | nil => simp [setAssoc, getAssoc]
  | cons p rest ih =>
    by_cases h : p.1 = k
    · subst h; simp [setAssoc, getAssoc]
    · simp [setAssoc, getAssoc, beq_iff_eq, h, ih]

theorem getAssoc_setAssoc_ne {α β : Type} [BEq α] [LawfulBEq α]
    (l : List (α × β)) (k k' : α) (v : β) (h : k' ≠ k) :
    getAssoc (setAssoc l k v) k' = getAssoc l k' := by
  induction l with
  | nil => simp [setAssoc, getAssoc, beq_iff_eq, Ne.symm h]
  | cons p rest ih =>
    by_cases hp : p.1 = k
    · subst hp; simp [setAssoc, getAssoc, beq_iff_eq, Ne.symm h]
    · simp only [setAssoc, beq_iff_eq, hp, if_false]
      by_cases hp' : p.1 = k'
      · simp [getAssoc, beq_iff_eq, hp']
      · simp [getAssoc, beq_iff_eq, hp', ih]

theorem getAssoc_delAssoc_self {α β : Type} [BEq α] [LawfulBEq α]
    (l : List (α × β)) (k : α) : getAssoc (delAssoc l k) k = none := by
  induction l with
  | nil => simp [delAssoc, getAssoc]
  | cons p rest ih =>
    by_cases h : p.1 = k
    · have hb : (p.1 == k) = true := beq_iff_eq.mpr h
      simpa [delAssoc, List.filter, hb] using ih
    · have hb : (p.1 == k) = false := by simp [beq_iff_eq, h]
      simp only [delAssoc, List.filter, hb, Bool.not_false] at ih ⊢
      simp [getAssoc, hb, ih]

theorem delAssoc_of_getAssoc_none {α β : Type} [BEq α] [LawfulBEq α]
    (l : List (α × β)) (k : α) (h : getAssoc l k = none) : delAssoc l k = l := by
  induction l with
  | nil => simp [delAssoc]
  | cons p rest ih =>
    by_cases hk : p.1 = k
    · simp [getAssoc, beq_iff_eq, hk] at h
    · have hb : (p.1 == k) = false := by simp [beq_iff_eq, hk]
      simp only [getAssoc, hb, if_false] at h
      simp only [delAssoc, List.filter, hb, Bool.not_false] at ih ⊢
      simp [ih h]

theorem getAssoc_delAssoc_ne {α β : Type} [BEq α] [LawfulBEq α]
    (l : List (α × β)) (k k' : α) (h : k' ≠ k) :
    getAssoc (delAssoc l k) k' = getAssoc l k' := by
  induction l with
  | nil => simp [delAssoc]
  | cons p rest ih =>
    by_cases hk : p.1 = k
    · have hb : (p.1 == k) = true := beq_iff_eq.mpr hk
      have hne : (p.1 == k') = false := by
        rw [hk]; simp [beq_iff_eq]; exact Ne.symm h
      simp only [delAssoc, List.filter, hb, Bool.not_true] at ih ⊢
      simpa [getAssoc, hne] using ih
    · have hb : (p.1 == k) = false := by simp [beq_iff_eq, hk]
      simp only [delAssoc, List.filter, hb, Bool.not_false] at ih ⊢
      by_cases hk' : p.1 = k'
      · have hb' : (p.1 == k') = true := beq_iff_eq.mpr hk'
        simp [getAssoc, hb']
      · have hb' : (p.1 == k') = false := by simp [beq_iff_eq, hk']
        simp [getAssoc, hb', ih]

/-! ## JavaScript values

`JSVal` models the runtime values the protocol moves around.  Named functions
(the exported handlers and any callback the user passes) are `vFun fid` with
`fid` a function identity.  `vWrapperStub name` is the closure built at
index.ts:110 when a request argument structurally matches a Function Token;
`vArrowStub name` is the closure built by `tryObj2fn` (index.ts:79).
`vTransferable tid` stands for an instance of one of the transferable classes
listed at index.ts:50-57. -/

inductive JSVal : Type where
  | vNull : JSVal
  | vUndef : JSVal
  | vBool : Bool → JSVal
  | vNum : Int → JSVal
  | vStr : String → JSVal
  | vFun : Nat → JSVal
  | vWrapperStub : JSVal → JSVal
  | vArrowStub : JSVal → JSVal
  | vTransferable : Nat → JSVal
  | vObj : List (String × JSVal) → JSVal
  | vArr : List JSVal → JSVal

namespace JSVal

/-- JS `typeof v === 'object'` (true for `null`, arrays, plain objects and
transferable class instances). -/
def typeofIsObject : JSVal → Bool
  | vNull => true
  | vObj _ => true
  | vArr _ => true
  | vTransferable _ => true
  | _ => false

/-- JS `typeof v === 'function'` (true for named functions and for the two
stub closures the router creates). -/
def typeofIsFunction : JSVal → Bool
  | vFun _ => true
  | vWrapperStub _ => true
  | vArrowStub _ => true
  | _ => false

/-- JS truthiness of a value (`if (v)`).  `NaN` is not modelled. -/
def jsTruthy : JSVal → Bool
  | vNull => false
  | vUndef => false
  | vBool b => b
  | vNum n => !(n == 0)
  | vStr s => !(s == "")
  | _ => true

/-- Truthiness of an optional message-field value, where `none` models an
absent field (which reads as `undefined`). -/
def optTruthy : Option JSVal → Bool
  | none => false
  | some v => jsTruthy v

/-- Field lookup on a field list; a missing field reads as `undefined`. -/
def getField (fields : List (String × JSVal)) (k : String) : JSVal :=
  match getAssoc fields k with
  | some v => v
  | none => vUndef

/-- JS property read `v[k]`.  Reading a property of `null` or `undefined`
throws a `TypeError`; the exact message text is host-defined, so the model
uses a fixed representative message.  Property reads on primitives box and
yield `undefined` for the keys used by this protocol; the stub closures and
transferable instances carry none of those keys either. -/
def getProp (v : JSVal) (k : String) : Except String JSVal :=
  match v with
  | vNull => .error ("TypeError: Cannot read properties of null, key " ++ k)
  | vUndef => .error ("TypeError: Cannot read properties of undefined, key " ++ k)
  | vObj fields => .ok (getField fields k)
  | _ => .ok vUndef

/-- JS `v.message`, as read by the `catch` blocks. -/
def eMessage (v : JSVal) : Except String JSVal := getProp v "message"

/-- Stringification used by the template literal at index.ts:101. -/
def displayString : JSVal → String
  | vNull => "null"
  | vUndef => "undefined"
  | vBool b => if b then "true" else "false"
  | vNum n => toString n
  | vStr s => s
  | vFun _ => "function"
  | vWrapperStub _ => "function"
  | vArrowStub _ => "function"
  | vTransferable _ => "object"
  | vObj _ => "object"
  | vArr _ => "object"

end JSVal

open JSVal

/-- Key marking an object as a transferred function (index.ts:40). -/
def TRANSFERRED_FUNCTION_KEY : String := "_wwt_is_transferred_function_"

/-- Idle threshold for cleaning up temp functions, in milliseconds
(index.ts:42). -/
def TEMP_FUNCTION_CG : Nat := 30 * 1000

/-- Leading part of generated ephemeral handler names (index.ts:43,
`TEMP_NAME_` followed by the source's final syllable). -/
def tempNameHead : String := "temp_fn_"

/-- Model of `String.startsWith s p` over the character lists, so that it
evaluates inside proofs. -/
def strStartsWith (s p : String) : Bool := p.data.isPrefixOf s.data

/-- The structural Function Token test shared by index.ts:78 and
index.ts:108: `typeof v === 'object' && v[TRANSFERRED_FUNCTION_KEY] === true`.
The property read throws a `TypeError` when `v` is `null` (for which
`typeof` also answers `'object'`). -/
def checkToken (v : JSVal) : Except String Bool :=
  if typeofIsObject v then do
    let m ← getProp v TRANSFERRED_FUNCTION_KEY
    pure (match m with | .vBool true => true | _ => false)
  else
    pure false

/-- Wire messages (index.ts:4-19).  `name` is kept as a runtime value since
the code never coerces it; `resolveF`/`rejectF` model the optional `resolve`
and `reject` fields of a response, `none` meaning the field is absent. -/
inductive CommMsg : Type where
  | request : Nat → JSVal → List JSVal → CommMsg
  | response : Nat → Option JSVal → Option JSVal → CommMsg

/-- A settlement of a pending-call entry: the router calling the stored
`resolve` or `reject` continuation with a value. -/
inductive Settle : Type where
  | res : Nat → JSVal → Settle
  | rej : Nat → JSVal → Settle

/-- Endpoint state owned by one `messageHandler` instance: the Handler Table
(`handlers`, index.ts:71), the Pending-Call Table (`promises`, index.ts:72,
mapping a correlation id to an identity of the recorded
resolve/reject pair), and the GC timestamp table (`cg`, index.ts:73, keyed
by function identity). -/
structure RouterState : Type where
  handlers : List (String × JSVal)
  promises : List (Nat × Nat)
  cg : List (Nat × Nat)

/-- Handler-table lookup `handlers.get(data.name)`; a non-string key misses
(only string names are ever registered). -/
def lookupHandler (handlers : List (String × JSVal)) : JSVal → Option JSVal
  | vStr s => getAssoc handlers s
  | _ => none

/-- Function identity used as a `cg` WeakMap key.  The stub closures are
fresh anonymous functions which are never in `cg` when looked up, so only
named functions carry an identity here. -/
def funId : JSVal → Option Nat
  | vFun fid => some fid
  | _ => none

/-- Line index.ts:103: `cg.has(handler) && cg.set(handler, Date.now())` —
refresh the timestamp of a handler that already has one. -/
def cgTouch (cg : List (Nat × Nat)) (handler : JSVal) (now : Nat) : List (Nat × Nat) :=
  match funId handler with
  | some fid => if (getAssoc cg fid).isSome then setAssoc cg fid now else cg
  | none => cg

/-- `fn2obj` (index.ts:63-67): register a live function under a fresh
ephemeral name and return the Function Token standing for it.  The random
suffix of the generated name is an input of the model. -/
def fn2obj (fn : JSVal) (suffix : String) (handlers : List (String × JSVal)) :
    JSVal × List (String × JSVal) :=
  let name := tempNameHead ++ suffix
  (vObj [(TRANSFERRED_FUNCTION_KEY, vBool true), ("name", vStr name)],
   setAssoc handlers name fn)

/-- `tryObj2fn` (index.ts:77-94): turn a Function Token back into a stub
closure (the arrow function of index.ts:79), leave any other value
unchanged.  The token test can throw on `null`. -/
def tryObj2fn (v : JSVal) : Except String JSVal := do
  if (← checkToken v) then
    return vArrowStub (← getProp v "name")
  else
    return v

/-- Unwrapping of one request argument (index.ts:106-121): a value that
structurally matches a Function Token becomes the `wrapper` stub closure
capturing the token's `name`; any other value is passed through.  The token
test can throw on `null`. -/
def unwrapArg (v : JSVal) : Except String JSVal := do
  if (← checkToken v) then
    return vWrapperStub (← getProp v "name")
  else
    return v

/-- Request branch of `messageHandler` (index.ts:98-136).  Returns the list
of messages posted back (empty or a single response) together with the
updated state.  The handler-invocation semantics is the oracle `env`;
a handler either returns a value or throws one.  A thrown `Error` is
modelled as an object with a `message` field.  When the thrown value has no
readable `message` property (thrown `null`/`undefined`), the read inside the
`catch` block itself throws and no response is posted. -/
def processRequest (env : JSVal → List JSVal → Except JSVal JSVal) (now : Nat)
    (st : RouterState) (reqid : Nat) (name : JSVal) (args : List JSVal) :
    List CommMsg × RouterState :=
  match lookupHandler st.handlers name with
  | none =>
      -- `throw new Error('[BUG] No handler for type ' + name)` caught below:
      -- the posted rejection carries the error's message.
      ([CommMsg.response reqid none
          (some (vStr ("[BUG] No handler for type " ++ displayString name)))], st)
  | some handler =>
      let st' := { st with cg := cgTouch st.cg handler now }
      match args.mapM unwrapArg with
      | .error msg =>
          -- the TypeError thrown while mapping the arguments is caught and
          -- its (truthy) message posted back
          ([CommMsg.response reqid none (some (vStr msg))], st')
      | .ok args' =>
          match env handler args' with
          | .ok result =>
              ([CommMsg.response reqid (some result) none], st')
          | .error e =>
              match eMessage e with
              | .ok m => ([CommMsg.response reqid none (some m)], st')
              | .error _ =>
                  -- reading `e.message` inside the catch block threw:
                  -- nothing is posted for this request
                  ([], st')

/-- Response branch of `messageHandler` (index.ts:137-142): settle the
pending entry when the corresponding field is truthy, then delete the
entry. -/
def processResponse (st : RouterState) (reqid : Nat)
    (resolveF rejectF : Option JSVal) : List Settle × RouterState :=
  let entry := getAssoc st.promises reqid
  let s1 : List Settle :=
    if optTruthy resolveF then
      match entry, resolveF with
      | some pc, some v => [Settle.res pc v]
      | _, _ => []
    else []
  let s2 : List Settle :=
    if optTruthy rejectF then
      match entry, rejectF with
      | some pc, some v => [Settle.rej pc v]
      | _, _ => []
    else []
  (s1 ++ s2, { st with promises := delAssoc st.promises reqid })

/-- The whole message callback returned by `messageHandler` (index.ts:96),
minus the debounced GC scheduling modelled separately by `gcSweep`. -/
def processMessage (env : JSVal → List JSVal → Except JSVal JSVal) (now : Nat)
    (st : RouterState) : CommMsg → List CommMsg × List Settle × RouterState
  | CommMsg.request reqid name args =>
      let (posted, st') := processRequest env now st reqid name args
      (posted, [], st')
  | CommMsg.response reqid resolveF rejectF =>
      let (settled, st') := processResponse st reqid resolveF rejectF
      ([], settled, st')

/-- Argument marshaling of the import proxy (index.ts:226) and of the
`tryObj2fn` stub (index.ts:85): function-typed arguments are replaced by
fresh Function Tokens via `fn2obj`, everything else passes through.  The
random suffixes of the generated names are supplied by `fresh`, indexed by
position. -/
def marshalArgs (fresh : Nat → String) :
    List JSVal → Nat → List (String × JSVal) → List JSVal × List (String × JSVal)
  | [], _, handlers => ([], handlers)
  | a :: rest, i, handlers =>
      if typeofIsFunction a then
        let (tok, handlers') := fn2obj a (fresh i) handlers
        let (rest', handlers'') := marshalArgs fresh rest (i + 1) handlers'
        (tok :: rest', handlers'')
      else
        let (rest', handlers') := marshalArgs fresh rest (i + 1) handlers
        (a :: rest', handlers')

/-- One proxy method call (`wrapper` at index.ts:220-231): record the
pending entry `pc` under the fresh correlation id `reqid`, marshal the
arguments, and post the request envelope. -/
def proxyCall (st : RouterState) (name : String) (args : List JSVal)
    (reqid : Nat) (pc : Nat) (fresh : Nat → String) : CommMsg × RouterState :=
  let (args', handlers') := marshalArgs fresh args 0 st.handlers
  (CommMsg.request reqid (vStr name) args',
   { st with promises := setAssoc st.promises reqid pc, handlers := handlers' })

/-- Invocation of the `wrapper` stub closure built at index.ts:110-118 for an
inbound Function Token: record the pending entry and post a request to the
token's name, with the arguments passed through `tryObj2fn` (index.ts:114).
If mapping the arguments throws, the promise executor throws instead and
nothing is posted. -/
def invokeWrapperStub (st : RouterState) (name : JSVal) (args : List JSVal)
    (reqid : Nat) (pc : Nat) : Except String CommMsg × RouterState :=
  -- `promises.set` (index.ts:113) runs before the argument mapping inside
  -- the `postMessage` expression, so a throwing map still leaves the entry.
  let st' := { st with promises := setAssoc st.promises reqid pc }
  match args.mapM tryObj2fn with
  | .error msg => (.error msg, st')
  | .ok args' => (.ok (CommMsg.request reqid name args'), st')

/-! ## Garbage-collection sweep (index.ts:144-159)

The debounced timeout body iterates the Handler Table in insertion order.
The sweep never looks inside a function value: it only uses it as a WeakMap
key, so the table is viewed here as `name ↦ function identity` with
identities abstracted to `Nat`. -/

/-- Body of the sweep timer: skip durable names, stamp an ephemeral entry
whose function has no timestamp yet, delete an ephemeral entry whose
timestamp is older than the idle threshold.  The timestamp table is
threaded left to right exactly as the mutation does. -/
def gcSweep (now : Nat) :
    List (String × Nat) → List (Nat × Nat) → List (String × Nat) × List (Nat × Nat)
  | [], cg => ([], cg)
  | (name, fn) :: rest, cg =>
      if strStartsWith name tempNameHead then
        match getAssoc cg fn with
        | none =>
            let (rest2, cg2) := gcSweep now rest (setAssoc cg fn now)
            ((name, fn) :: rest2, cg2)
        | some ts =>
            if now - ts > TEMP_FUNCTION_CG then
              gcSweep now rest cg
            else
              let (rest2, cg2) := gcSweep now rest cg
              ((name, fn) :: rest2, cg2)
      else
        -- `continue`: durable names are skipped untouched
        let (rest2, cg2) := gcSweep now rest cg
        ((name, fn) :: rest2, cg2)

/-! ## Transferable Scanner (index.ts:46-60)

`getTransferableObjects` walks an arbitrary value graph, so the model uses a
heap of nodes addressed by numeric object identity; the `WeakSet` is an
explicit list of already-visited identities.  `prim` covers every
`typeof object !== 'object' || object === null` value, `arr` is an `Array`,
`transferable` an instance of one of the transferable classes (returned as a
leaf, its own contents never visited), and `obj` any other object, recursed
through its enumerable values.  Shared references and cycles are arbitrary
since children are just node ids.  The recursion is fueled; fuel
`heap.length + 1` always suffices because each level of descent marks a new
node as seen. -/

inductive ScanNode : Type where
  | prim : ScanNode
  | arr : List Nat → ScanNode
  | transferable : List Nat → ScanNode
  | obj : List Nat → ScanNode

/-- One call of `getTransferableObjects(object, seen)`: returns the
collected transferable ids and the grown visited set.  The `flatMap` over
children is a left fold threading the mutated visited set.  Recursion is
structural on the fuel. -/
def scanGo (heap : List ScanNode) : Nat → Nat → List Nat → List Nat × List Nat
  | 0, _, seen => ([], seen)
  | fuel + 1, id, seen =>
      match heap[id]? with
      | none => ([], seen)
      | some ScanNode.prim => ([], seen)
      | some node =>
          if id ∈ seen then ([], seen)
          else
            let seen1 := id :: seen
            match node with
            | ScanNode.prim => ([], seen1)
            | ScanNode.transferable _ => ([id], seen1)
            | ScanNode.arr cs =>
                cs.foldl (fun acc c =>
                  let r := scanGo heap fuel c acc.2
                  (acc.1 ++ r.1, r.2)) ([], seen1)
            | ScanNode.obj cs =>
                cs.foldl (fun acc c =>
                  let r := scanGo heap fuel c acc.2
                  (acc.1 ++ r.1, r.2)) ([], seen1)

/-- The child loop of `scanGo`, written as explicit recursion for proofs:
`scanChildren f cs seen` visits the children left to right with the visitor
`f`, threading the visited set. -/
def scanChildren (f : Nat → List Nat → List Nat × List Nat) :
    List Nat → List Nat → List Nat × List Nat
  | [], seen => ([], seen)
  | c :: cs, seen =>
      let r1 := f c seen
      let r2 := scanChildren f cs r1.2
      (r1.1 ++ r2.1, r2.2)

theorem foldl_scan_eq_scanChildren (f : Nat → List Nat → List Nat × List Nat)
    (cs : List Nat) : ∀ (acc : List Nat) (seen : List Nat),
    cs.foldl (fun acc c => let r := f c acc.2; (acc.1 ++ r.1, r.2)) (acc, seen)
      = (acc ++ (scanChildren f cs seen).1, (scanChildren f cs seen).2) := by
  induction cs with
  | nil => intro acc seen; simp [scanChildren]
  | cons c cs ih =>
      intro acc seen
      simp only [List.foldl_cons, scanChildren]
      rw [ih]
      simp

/-- `getTransferableObjects(root)` with the default empty `WeakSet`. -/
def getTransferableObjects (heap : List ScanNode) (root : Nat) : List Nat :=
  (scanGo heap (heap.length + 1) root []).1

/-! ## Supporting lemmas -/

/-- The no-handler error message is never the empty string, hence truthy. -/
theorem noHandlerMsg_ne_empty (s : String) :
    (("[BUG] No handler for type " ++ s) == "") = false := by
  simp only [beq_eq_false_iff_ne, ne_eq]
  intro h
  have h2 := congrArg String.length h
  simp [String.length_append] at h2
  exact absurd h2.1 (by decide)

/-- An argument is inert when it is neither function-typed (so marshaling
leaves it alone) nor a Function Token nor `null` (so inbound unwrapping
returns it unchanged). -/
def inertArg (a : JSVal) : Bool :=
  !(typeofIsFunction a) &&
    (match checkToken a with | .ok false => true | _ => false)

theorem checkToken_of_inert {a : JSVal} (h : inertArg a = true) :
    checkToken a = .ok false := by
  unfold inertArg at h
  rcases Bool.and_eq_true _ _ |>.mp h with ⟨_, h2⟩
  revert h2
  cases hct : checkToken a with
  | error e => intro h2; simp at h2
  | ok b => cases b with
    | false => intro _; rfl
    | true => intro h2; simp at h2

theorem unwrapArg_of_inert {a : JSVal} (h : inertArg a = true) :
    unwrapArg a = .ok a := by
  have hc := checkToken_of_inert h
  unfold unwrapArg
  rw [hc]
  rfl

theorem mapM_unwrapArg_of_inert {args : List JSVal} (h : args.all inertArg = true) :
    args.mapM unwrapArg = .ok args := by
  induction args with
  | nil => rfl
  | cons a rest ih =>
    rw [List.all_cons] at h
    rcases Bool.and_eq_true _ _ |>.mp h with ⟨ha, hrest⟩
    rw [List.mapM_cons, unwrapArg_of_inert ha, ih hrest]
    rfl

theorem marshalArgs_of_inert (fresh : Nat → String) {args : List JSVal}
    (h : args.all inertArg = true) :
    ∀ (i : Nat) (handlers : List (String × JSVal)),
      marshalArgs fresh args i handlers = (args, handlers) := by
  induction args with
  | nil => intro i handlers; rfl
  | cons a rest ih =>
    rw [List.all_cons] at h
    rcases Bool.and_eq_true _ _ |>.mp h with ⟨ha, hrest⟩
    intro i handlers
    have hfn : typeofIsFunction a = false := by
      unfold inertArg at ha
      exact (Bool.not_eq_true' _).mp (Bool.and_eq_true _ _ |>.mp ha).1
    simp [marshalArgs, hfn, ih hrest]

/-! ## Claim theorems (first group) -/

/-- C2: when the `wrapper` stub built from an inbound Function Token is
invoked with a function-valued argument, the argument is mapped through
`tryObj2fn` (index.ts:114), which leaves a function unchanged — it is *not*
marshaled by `fn2obj` into a registered Function Token.  The raw function
ends up in the posted request's `args` and the local Handler Table gains no
entry, contradicting the claim (and the sibling marshaling sites
index.ts:85 and index.ts:226, which do call `fn2obj`).  At runtime, posting
a raw function would throw a `DataCloneError`. -/
theorem c2_wrapper_sends_raw_function (st : RouterState) (name : JSVal)
    (reqid pc fid : Nat) :
    tryObj2fn (vFun fid) = .ok (vFun fid)
    ∧ invokeWrapperStub st name [vFun fid] reqid pc
        = (.ok (CommMsg.request reqid name [vFun fid]),
           { st with promises := setAssoc st.promises reqid pc })
    ∧ (invokeWrapperStub st name [vFun fid] reqid pc).2.handlers = st.handlers := by
  refine ⟨rfl, rfl, rfl⟩

/-- C6: a response whose correlation id has no Pending-Call entry settles
nothing and leaves the state unchanged; any processed response removes the
entry for its id, so reprocessing the same response is a no-op. -/
theorem c6_response_noop (st : RouterState) (reqid : Nat)
    (resolveF rejectF : Option JSVal) :
    (getAssoc st.promises reqid = none →
        processResponse st reqid resolveF rejectF = ([], st))
    ∧ getAssoc (processResponse st reqid resolveF rejectF).2.promises reqid = none
    ∧ processResponse (processResponse st reqid resolveF rejectF).2 reqid resolveF rejectF
        = ([], (processResponse st reqid resolveF rejectF).2) := by
  have habsent : ∀ st' : RouterState, getAssoc st'.promises reqid = none →
      processResponse st' reqid resolveF rejectF = ([], st') := by
    intro st' h
    unfold processResponse
    rw [h, delAssoc_of_getAssoc_none _ _ h]
    cases hr : optTruthy resolveF <;> cases hj : optTruthy rejectF <;> simp
  have hdel : getAssoc (processResponse st reqid resolveF rejectF).2.promises reqid = none := by
    unfold processResponse
    exact getAssoc_delAssoc_self _ _
  exact ⟨habsent st, hdel, habsent _ hdel⟩

/-- C7: a request for a name absent from the Handler Table produces exactly
one failure response whose message embeds the missing name, the local state
is untouched, and the caller holding the pending entry sees exactly one
rejection carrying that message. -/
theorem c7_no_handler (env : JSVal → List JSVal → Except JSVal JSVal)
    (now : Nat) (st cSt : RouterState) (reqid pc : Nat) (name : String)
    (args : List JSVal)
    (h : getAssoc st.handlers name = none)
    (hpc : getAssoc cSt.promises reqid = some pc) :
    processRequest env now st reqid (vStr name) args
      = ([CommMsg.response reqid none
            (some (vStr ("[BUG] No handler for type " ++ name)))], st)
    ∧ (processResponse cSt reqid none
          (some (vStr ("[BUG] No handler for type " ++ name)))).1
        = [Settle.rej pc (vStr ("[BUG] No handler for type " ++ name))] := by
  constructor
  · unfold processRequest
    rw [show lookupHandler st.handlers (vStr name) = none from h]
    rfl
  · unfold processResponse
    rw [hpc]
    simp [optTruthy, jsTruthy, noHandlerMsg_ne_empty]

/-- C10: when a handler throws a value whose `message` property is readable
but falsy (a thrown plain string gives `undefined`, an `Error` with empty
message gives `""`), the failure response carries that falsy `reject` field;
the originating side then deletes the Pending-Call entry without settling
it, so the caller's promise can never settle. -/
theorem c10_falsy_reject (env : JSVal → List JSVal → Except JSVal JSVal)
    (now : Nat) (st cSt : RouterState) (reqid pc : Nat) (name : JSVal)
    (args : List JSVal) (handler e m : JSVal)
    (h1 : lookupHandler st.handlers name = some handler)
    (h2 : args.all inertArg = true)
    (h3 : env handler args = .error e)
    (h4 : eMessage e = .ok m)
    (h5 : jsTruthy m = false)
    (h6 : getAssoc cSt.promises reqid = some pc) :
    (processRequest env now st reqid name args).1
      = [CommMsg.response reqid none (some m)]
    ∧ processResponse cSt reqid none (some m)
        = ([], { cSt with promises := delAssoc cSt.promises reqid })
    ∧ getAssoc (delAssoc cSt.promises reqid) reqid = none := by
  refine ⟨?_, ?_, getAssoc_delAssoc_self _ _⟩
  · unfold processRequest
    rw [h1]
    simp only [mapM_unwrapArg_of_inert h2, h3, h4]
  · unfold processResponse
    simp [optTruthy, h5]

/-- The `name` property of a Function Token object (`obj.name` at
index.ts:109 and index.ts:84). -/
def tokenName : JSVal → JSVal
  | vObj fields => getField fields "name"
  | _ => vUndef

theorem getProp_name_eq_tokenName {v : JSVal} (hobj : typeofIsObject v = true)
    (hv : v ≠ vNull) : getProp v "name" = .ok (tokenName v) := by
  cases v <;> simp_all [typeofIsObject, getProp, tokenName]

theorem invokeWrapperStub_spec (st : RouterState) (n : JSVal)
    (args as : List JSVal) (reqid pc : Nat) (h : args.mapM tryObj2fn = .ok as) :
    invokeWrapperStub st n args reqid pc
      = (.ok (CommMsg.request reqid n as),
         { st with promises := setAssoc st.promises reqid pc }) := by
  unfold invokeWrapperStub
  rw [h]

theorem processResponse_res (st : RouterState) (reqid pc : Nat) (w : JSVal)
    (hpc : getAssoc st.promises reqid = some pc) (hw : jsTruthy w = true) :
    (processResponse st reqid (some w) none).1 = [Settle.res pc w] := by
  unfold processResponse
  rw [hpc]
  simp [optTruthy, hw]

/-! Characterization lemmas for `processRequest`, one per outcome. -/

theorem processRequest_noHandler {env : JSVal → List JSVal → Except JSVal JSVal}
    (now : Nat) {st : RouterState} (reqid : Nat) {name : JSVal}
    {args : List JSVal} (hl : lookupHandler st.handlers name = none) :
    processRequest env now st reqid name args
      = ([CommMsg.response reqid none
            (some (vStr ("[BUG] No handler for type " ++ displayString name)))], st) := by
  unfold processRequest
  rw [hl]

theorem processRequest_unwrapThrow {env : JSVal → List JSVal → Except JSVal JSVal}
    (now : Nat) {st : RouterState} (reqid : Nat) {name : JSVal}
    {args : List JSVal} {handler : JSVal} {msg : String}
    (hl : lookupHandler st.handlers name = some handler)
    (hm : args.mapM unwrapArg = .error msg) :
    processRequest env now st reqid name args
      = ([CommMsg.response reqid none (some (vStr msg))],
         { st with cg := cgTouch st.cg handler now }) := by
  simp only [processRequest, hl, hm]

theorem processRequest_ok {env : JSVal → List JSVal → Except JSVal JSVal}
    (now : Nat) {st : RouterState} (reqid : Nat) {name : JSVal}
    {args as : List JSVal} {handler v : JSVal}
    (hl : lookupHandler st.handlers name = some handler)
    (hm : args.mapM unwrapArg = .ok as)
    (he : env handler as = .ok v) :
    processRequest env now st reqid name args
      = ([CommMsg.response reqid (some v) none],
         { st with cg := cgTouch st.cg handler now }) := by
  simp only [processRequest, hl, hm, he]

theorem processRequest_thrownMsg {env : JSVal → List JSVal → Except JSVal JSVal}
    (now : Nat) {st : RouterState} (reqid : Nat) {name : JSVal}
    {args as : List JSVal} {handler e m : JSVal}
    (hl : lookupHandler st.handlers name = some handler)
    (hm : args.mapM unwrapArg = .ok as)
    (he : env handler as = .error e)
    (hme : JSVal.eMessage e = .ok m) :
    processRequest env now st reqid name args
      = ([CommMsg.response reqid none (some m)],
         { st with cg := cgTouch st.cg handler now }) := by
  simp only [processRequest, hl, hm, he, hme]

theorem processRequest_thrownNoMsg {env : JSVal → List JSVal → Except JSVal JSVal}
    (now : Nat) {st : RouterState} (reqid : Nat) {name : JSVal}
    {args as : List JSVal} {handler e : JSVal} {msg : String}
    (hl : lookupHandler st.handlers name = some handler)
    (hm : args.mapM unwrapArg = .ok as)
    (he : env handler as = .error e)
    (hme : JSVal.eMessage e = .error msg) :
    processRequest env now st reqid name args
      = ([], { st with cg := cgTouch st.cg handler now }) := by
  simp only [processRequest, hl, hm, he, hme]

/-- C5 (amended): provided every value a handler throws has a readable
`message` property, each inbound request produces exactly one response —
success carrying the result or failure carrying the message — and the
failure is recovered locally: the Handler Table and Pending-Call Table are
untouched, so subsequent messages are processed as if the failure had not
happened.  (Without the proviso, a handler throwing `null`/`undefined`
makes the `e.message` read inside the catch block throw, and no response is
posted: see the counterexample.) -/
theorem c5_one_response (env : JSVal → List JSVal → Except JSVal JSVal)
    (now : Nat) (st : RouterState) (reqid : Nat) (name : JSVal)
    (args : List JSVal)
    (hsafe : ∀ h as e, env h as = .error e → (JSVal.eMessage e).isOk = true) :
    (∃ rf jf, (processRequest env now st reqid name args).1
        = [CommMsg.response reqid rf jf])
    ∧ (processRequest env now st reqid name args).2.handlers = st.handlers
    ∧ (processRequest env now st reqid name args).2.promises = st.promises
    ∧ (∀ handler as v, lookupHandler st.handlers name = some handler →
        args.mapM unwrapArg = .ok as → env handler as = .ok v →
        (processRequest env now st reqid name args).1
          = [CommMsg.response reqid (some v) none])
    ∧ (∀ handler as e m, lookupHandler st.handlers name = some handler →
        args.mapM unwrapArg = .ok as → env handler as = .error e →
        JSVal.eMessage e = .ok m →
        (processRequest env now st reqid name args).1
          = [CommMsg.response reqid none (some m)]) := by
  have hcond1 : ∀ handler as v, lookupHandler st.handlers name = some handler →
      args.mapM unwrapArg = .ok as → env handler as = .ok v →
      (processRequest env now st reqid name args).1
        = [CommMsg.response reqid (some v) none] := by
    intro handler as v hl hm he
    rw [processRequest_ok now reqid hl hm he]
  have hcond2 : ∀ handler as e m, lookupHandler st.handlers name = some handler →
      args.mapM unwrapArg = .ok as → env handler as = .error e →
      JSVal.eMessage e = .ok m →
      (processRequest env now st reqid name args).1
        = [CommMsg.response reqid none (some m)] := by
    intro handler as e m hl hm he hme
    rw [processRequest_thrownMsg now reqid hl hm he hme]
  refine ⟨?_, ?_, ?_, hcond1, hcond2⟩ <;>
  · cases hl : lookupHandler st.handlers name with
    | none => rw [processRequest_noHandler now reqid hl]; all_goals exact ⟨_, _, rfl⟩
    | some handler =>
        cases hm : args.mapM unwrapArg with
        | error msg =>
            rw [processRequest_unwrapThrow now reqid hl hm]
            all_goals exact ⟨_, _, rfl⟩
        | ok as =>
            cases he : env handler as with
            | ok v =>
                rw [processRequest_ok now reqid hl hm he]
                all_goals exact ⟨_, _, rfl⟩
            | error e =>
                have hmsg := hsafe handler as e he
                cases hme : JSVal.eMessage e with
                | error x => rw [hme] at hmsg; cases hmsg
                | ok m =>
                    rw [processRequest_thrownMsg now reqid hl hm he hme]
                    all_goals exact ⟨_, _, rfl⟩

/-- C5 counterexample: a handler that throws `null` produces *zero*
responses — `e.message` inside the catch block throws a `TypeError` — so
"exactly one response envelope is posted per request" fails as stated.  The
request names a registered handler and still gets no response. -/
theorem c5_counterexample :
    getAssoc (RouterState.mk [("boom", vFun 0)] [] []).handlers "boom" = some (vFun 0)
    ∧ (fun (_ : JSVal) (_ : List JSVal) =>
        (.error vNull : Except JSVal JSVal)) (vFun 0) [] = .error vNull
    ∧ (processRequest (fun _ _ => .error vNull) 0
        (RouterState.mk [("boom", vFun 0)] [] []) 7 (vStr "boom") []).1 = [] :=
  ⟨rfl, rfl, rfl⟩

/-- C8 (amended): for every *non-null* value received as a request argument,
the inbound unwrap behaves as claimed: a value structurally matching a
Function Token becomes a `wrapper` stub which, when invoked, records a
pending entry and posts a request addressed by the token's name, and a
truthy success response for that request settles the recorded entry; every
non-token value is passed through unchanged.  (`null` has
`typeof null === 'object'`, so the token test reads a property of `null`
and throws: see the counterexample.) -/
theorem c8_unwrap (v : JSVal) (hv : v ≠ vNull) :
    ∃ b, checkToken v = .ok b
      ∧ (b = false → unwrapArg v = .ok v)
      ∧ (b = true →
          unwrapArg v = .ok (vWrapperStub (tokenName v))
          ∧ ∀ (st : RouterState) (args as : List JSVal) (reqid pc : Nat),
              args.mapM tryObj2fn = .ok as →
              invokeWrapperStub st (tokenName v) args reqid pc
                = (.ok (CommMsg.request reqid (tokenName v) as),
                   { st with promises := setAssoc st.promises reqid pc })
              ∧ ∀ w : JSVal, jsTruthy w = true →
                  (processResponse
                      { st with promises := setAssoc st.promises reqid pc }
                      reqid (some w) none).1 = [Settle.res pc w]) := by
  have hok : ∃ b, checkToken v = .ok b := by
    cases v with
    | vNull => exact absurd rfl hv
    | vObj fields => exact ⟨_, rfl⟩
    | vArr elems => exact ⟨_, rfl⟩
    | vTransferable tid => exact ⟨_, rfl⟩
    | vUndef => exact ⟨false, rfl⟩
    | vBool b => exact ⟨false, rfl⟩
    | vNum n => exact ⟨false, rfl⟩
    | vStr s => exact ⟨false, rfl⟩
    | vFun fid => exact ⟨false, rfl⟩
    | vWrapperStub n => exact ⟨false, rfl⟩
    | vArrowStub n => exact ⟨false, rfl⟩
  obtain ⟨b, hb⟩ := hok
  refine ⟨b, hb, ?_, ?_⟩
  · intro hfalse
    subst hfalse
    unfold unwrapArg
    rw [hb]
    rfl
  · intro htrue
    subst htrue
    have hobj : typeofIsObject v = true := by
      by_contra hno
      have : checkToken v = .ok false := by
        unfold checkToken
        rw [if_neg (by simpa using hno)]
        rfl
      rw [this] at hb
      cases hb
    have hname := getProp_name_eq_tokenName hobj hv
    constructor
    · unfold unwrapArg
      rw [hb, hname]
      rfl
    · intro st args as reqid pc hmap
      refine ⟨invokeWrapperStub_spec st (tokenName v) args as reqid pc hmap, ?_⟩
      intro w hw
      exact processResponse_res _ reqid pc w
        (getAssoc_setAssoc_self st.promises reqid pc) hw

/-- C8 counterexample: `null` does not structurally match a Function Token,
yet it is not passed to the handler unchanged — the token test
`typeof arg === 'object' && arg[key] === true` throws a `TypeError` on it,
and the request is rejected without the handler (which would have returned
a value) ever running. -/
theorem c8_counterexample :
    unwrapArg vNull
      = .error "TypeError: Cannot read properties of null, key _wwt_is_transferred_function_"
    ∧ (processRequest (fun _ _ => .ok (vStr "ran")) 0
        (RouterState.mk [("f", vFun 0)] [] []) 7 (vStr "f") [vNull]).1
      = [CommMsg.response 7 none
          (some (vStr "TypeError: Cannot read properties of null, key _wwt_is_transferred_function_"))] :=
  ⟨rfl, rfl⟩

/-- Processing, on the calling side, of the messages the remote endpoint
posted.  In the modelled exchanges these are response envelopes; any
messages the processing itself would post are not re-delivered here. -/
def processPosted (env : JSVal → List JSVal → Except JSVal JSVal) (now : Nat)
    (st : RouterState) : List CommMsg → List Settle × RouterState
  | [] => ([], st)
  | m :: ms =>
      let (_, settled, st') := processMessage env now st m
      let (settled2, st'') := processPosted env now st' ms
      (settled ++ settled2, st'')

/-- One complete proxy call round trip: the caller invokes a proxy method
(index.ts:220-231), the remote router processes the request envelope
(index.ts:98-136), and the caller's router processes whatever response came
back (index.ts:137-142).  Returns the settlements observed by the caller,
the remote's posted messages, and both final states. -/
def roundTrip (env : JSVal → List JSVal → Except JSVal JSVal) (now : Nat)
    (caller remote : RouterState) (name : String) (args : List JSVal)
    (reqid pc : Nat) (fresh : Nat → String) :
    List Settle × List CommMsg × RouterState × RouterState :=
  let (msg, caller1) := proxyCall caller name args reqid pc fresh
  let (posted, _, remote1) := processMessage env now remote msg
  let (settled, caller2) := processPosted env now caller1 posted
  (settled, posted, caller2, remote1)

theorem processResponse_absent (st : RouterState) (reqid : Nat)
    (resolveF rejectF : Option JSVal)
    (h : getAssoc st.promises reqid = none) :
    processResponse st reqid resolveF rejectF = ([], st) := by
  unfold processResponse
  rw [h, delAssoc_of_getAssoc_none _ _ h]
  cases hr : optTruthy resolveF <;> cases hj : optTruthy rejectF <;> simp

theorem processResponse_resolve (st : RouterState) (reqid pc : Nat) (v : JSVal)
    (hpc : getAssoc st.promises reqid = some pc) :
    processResponse st reqid (some v) none
      = ((if jsTruthy v then [Settle.res pc v] else []),
         { st with promises := delAssoc st.promises reqid }) := by
  unfold processResponse
  rw [hpc]
  cases hj : jsTruthy v <;> simp [optTruthy, hj]

theorem processResponse_reject (st : RouterState) (reqid pc : Nat) (m : JSVal)
    (hpc : getAssoc st.promises reqid = some pc) :
    processResponse st reqid none (some m)
      = ((if jsTruthy m then [Settle.rej pc m] else []),
         { st with promises := delAssoc st.promises reqid }) := by
  unfold processResponse
  rw [hpc]
  cases hj : jsTruthy m <;> simp [optTruthy, hj]

/-- C1 (amended): for a durable handler `f` called through the import proxy
with inert arguments, the caller's promise is settled *at most* once: when
`f`'s (awaited) value is truthy the promise resolves with it, and when the
thrown error's message is truthy the promise rejects with it.  When the
value or the message is falsy, no settlement occurs and the Pending-Call
entry is deleted, so the promise can never settle.  When the thrown value
has no readable `message` property, no response is posted at all and the
entry survives, the promise pending forever.  Reprocessing the posted
responses settles nothing, so no second settlement can occur. -/
theorem c1_roundtrip (env : JSVal → List JSVal → Except JSVal JSVal)
    (now : Nat) (caller remote : RouterState) (name : String)
    (args : List JSVal) (reqid pc : Nat) (fresh : Nat → String) (fid : Nat)
    (hh : getAssoc remote.handlers name = some (vFun fid))
    (hargs : args.all inertArg = true) :
    (roundTrip env now caller remote name args reqid pc fresh).1
      = (match env (vFun fid) args with
         | .ok v => if jsTruthy v then [Settle.res pc v] else []
         | .error e =>
             match JSVal.eMessage e with
             | .ok m => if jsTruthy m then [Settle.rej pc m] else []
             | .error _ => [])
    ∧ (processPosted env now (roundTrip env now caller remote name args reqid pc fresh).2.2.1
        (roundTrip env now caller remote name args reqid pc fresh).2.1).1 = []
    ∧ getAssoc
        (roundTrip env now caller remote name args reqid pc fresh).2.2.1.promises reqid
      = (match env (vFun fid) args with
         | .ok _ => none
         | .error e =>
             match JSVal.eMessage e with
             | .ok _ => none
             | .error _ => some pc) := by
  have hmarshal := marshalArgs_of_inert fresh hargs 0 caller.handlers
  have hunwrap := mapM_unwrapArg_of_inert hargs
  have hl : lookupHandler remote.handlers (vStr name) = some (vFun fid) := hh
  have hcaller1 : proxyCall caller name args reqid pc fresh
      = (CommMsg.request reqid (vStr name) args,
         { caller with promises := setAssoc caller.promises reqid pc,
                       handlers := caller.handlers }) := by
    unfold proxyCall
    rw [hmarshal]
  have hpc1 : getAssoc (setAssoc caller.promises reqid pc) reqid = some pc :=
    getAssoc_setAssoc_self caller.promises reqid pc
  have hpc2 : getAssoc (delAssoc (setAssoc caller.promises reqid pc) reqid) reqid = none :=
    getAssoc_delAssoc_self _ _
  cases he : env (vFun fid) args with
  | ok v =>
      have hreq := processRequest_ok now reqid hl hunwrap he
      simp only [roundTrip, hcaller1, processMessage, hreq, processPosted]
      rw [processResponse_resolve
        { caller with promises := setAssoc caller.promises reqid pc } reqid pc v hpc1]
      refine ⟨by simp, ?_, ?_⟩
      · rw [processResponse_absent
          { caller with promises := delAssoc (setAssoc caller.promises reqid pc) reqid }
          reqid (some v) none hpc2]
        simp
      · exact hpc2
  | error e =>
      cases hme : JSVal.eMessage e with
      | ok m =>
          have hreq := processRequest_thrownMsg now reqid hl hunwrap he hme
          simp only [roundTrip, hcaller1, processMessage, hreq, processPosted]
          rw [processResponse_reject
            { caller with promises := setAssoc caller.promises reqid pc } reqid pc m hpc1]
          refine ⟨by simp [hme], ?_, ?_⟩
          · rw [processResponse_absent
              { caller with promises := delAssoc (setAssoc caller.promises reqid pc) reqid }
              reqid none (some m) hpc2]
            simp
          · simp only [hme]
            exact hpc2
      | error msg =>
          have hreq := processRequest_thrownNoMsg now reqid hl hunwrap he hme
          simp only [roundTrip, hcaller1, processMessage, hreq, processPosted]
          refine ⟨by simp [hme], trivial, ?_⟩
          simp only [hme]
          exact hpc1

/-- C1 counterexample: a durable handler returning the falsy value `0` —
the proxy call completes a full round trip, the response carries
`resolve: 0`, yet the caller's promise is never settled (no settlement
occurs and the Pending-Call entry is deleted), so "resolves with the value
of f(a) exactly once" fails as stated. -/
theorem c1_counterexample :
    (roundTrip (fun _ _ => .ok (vNum 0)) 0 (RouterState.mk [] [] [])
        (RouterState.mk [("zero", vFun 0)] [] []) "zero" [] 7 99 (fun _ => "s")).1 = []
    ∧ getAssoc ((roundTrip (fun _ _ => .ok (vNum 0)) 0 (RouterState.mk [] [] [])
        (RouterState.mk [("zero", vFun 0)] [] []) "zero" [] 7 99 (fun _ => "s")).2.2.1).promises 7
      = none
    ∧ (roundTrip (fun _ _ => .ok (vNum 0)) 0 (RouterState.mk [] [] [])
        (RouterState.mk [("zero", vFun 0)] [] []) "zero" [] 7 99 (fun _ => "s")).2.1
      = [CommMsg.response 7 (some (vNum 0)) none] :=
  ⟨rfl, rfl, rfl⟩

/-! ## C3: garbage-collection sweep lemmas -/

theorem gcSweep_delete_cond (now : Nat) :
    ∀ (hs : List (String × Nat)) (cg cg0 : List (Nat × Nat)),
      (∀ fn, getAssoc cg fn = getAssoc cg0 fn ∨
             (getAssoc cg0 fn = none ∧ getAssoc cg fn = some now)) →
      ∀ name fn, (name, fn) ∈ hs → (name, fn) ∉ (gcSweep now hs cg).1 →
        strStartsWith name tempNameHead = true ∧
        ∃ ts, getAssoc cg0 fn = some ts ∧ now - ts > TEMP_FUNCTION_CG := by
  intro hs
  induction hs with
  | nil => intro cg cg0 _ name fn hmem _; cases hmem
  | cons p rest ih =>
      intro cg cg0 hinv name fn hmem hnot
      obtain ⟨n2, f2⟩ := p
      simp only [gcSweep] at hnot
      by_cases hstart : strStartsWith n2 tempNameHead = true
      · rw [if_pos hstart] at hnot
        cases hcg : getAssoc cg f2 with
        | none =>
            simp only [hcg] at hnot
            simp only [List.mem_cons] at hnot
            push_neg at hnot
            rcases List.mem_cons.mp hmem with hhead | htail
            · exact absurd hhead hnot.1
            · refine ih (setAssoc cg f2 now) cg0 ?_ name fn htail hnot.2
              intro fn2
              by_cases hf : fn2 = f2
              · subst hf
                rcases hinv fn2 with h1 | h2
                · right
                  exact ⟨h1 ▸ hcg, getAssoc_setAssoc_self cg fn2 now⟩
                · rw [hcg] at h2
                  cases h2.2
              · rw [getAssoc_setAssoc_ne cg f2 fn2 now hf]
                exact hinv fn2
        | some ts =>
            simp only [hcg] at hnot
            by_cases hold : now - ts > TEMP_FUNCTION_CG
            · rw [if_pos hold] at hnot
              rcases List.mem_cons.mp hmem with hhead | htail
              · injection hhead with hn hf
                subst hn; subst hf
                refine ⟨hstart, ts, ?_, hold⟩
                rcases hinv fn with h1 | h2
                · exact h1 ▸ hcg
                · rw [hcg] at h2
                  have hts : ts = now := Option.some.inj h2.2
                  subst hts
                  exact absurd hold (by simp [TEMP_FUNCTION_CG])
              · exact ih cg cg0 hinv name fn htail hnot
            · rw [if_neg hold] at hnot
              simp only [List.mem_cons] at hnot
              push_neg at hnot
              rcases List.mem_cons.mp hmem with hhead | htail
              · exact absurd hhead hnot.1
              · exact ih cg cg0 hinv name fn htail hnot.2
      · rw [if_neg hstart] at hnot
        simp only [List.mem_cons] at hnot
        push_neg at hnot
        rcases List.mem_cons.mp hmem with hhead | htail
        · exact absurd hhead hnot.1
        · exact ih cg cg0 hinv name fn htail hnot.2

theorem gcSweep_keeps_durable (now : Nat) :
    ∀ (hs : List (String × Nat)) (cg : List (Nat × Nat)) (name : String) (fn : Nat),
      (name, fn) ∈ hs → strStartsWith name tempNameHead = false →
      (name, fn) ∈ (gcSweep now hs cg).1 := by
  intro hs
  induction hs with
  | nil => intro cg name fn hmem _; cases hmem
  | cons p rest ih =>
      intro cg name fn hmem hdur
      obtain ⟨n2, f2⟩ := p
      simp only [gcSweep]
      rcases List.mem_cons.mp hmem with hhead | htail
      · have hn : name = n2 := congrArg Prod.fst hhead
        have hf : fn = f2 := congrArg Prod.snd hhead
        subst hn; subst hf
        simp only [hdur]
        rw [if_neg (by exact Bool.false_ne_true)]
        exact List.mem_cons_self _ _
      · by_cases hstart : strStartsWith n2 tempNameHead = true
        · rw [if_pos hstart]
          split
          · exact List.mem_cons_of_mem _ (ih _ name fn htail hdur)
          · split
            · exact ih _ name fn htail hdur
            · exact List.mem_cons_of_mem _ (ih _ name fn htail hdur)
        · rw [if_neg hstart]
          exact List.mem_cons_of_mem _ (ih _ name fn htail hdur)

theorem cgTouch_preserves_keys (cg : List (Nat × Nat)) (h : JSVal) (now k : Nat) :
    (getAssoc (cgTouch cg h now) k).isSome = (getAssoc cg k).isSome := by
  unfold cgTouch
  cases hf : funId h with
  | none => rfl
  | some fid =>
      show (getAssoc (if (getAssoc cg fid).isSome = true then setAssoc cg fid now else cg)
        k).isSome = (getAssoc cg k).isSome
      by_cases hs : (getAssoc cg fid).isSome = true
      · rw [if_pos hs]
        by_cases hk : k = fid
        · subst hk
          rw [getAssoc_setAssoc_self, hs]
          rfl
        · rw [getAssoc_setAssoc_ne cg fid k now hk]
      · rw [if_neg hs]

/-- C3: a sweep deletes a Handler Table entry only when its name carries the
ephemeral marker and its function already had a timestamp — set by an
earlier sweep, since message processing (`cgTouch`, index.ts:103) only
refreshes existing timestamps and never creates one — whose age exceeds the
idle threshold; entries without the ephemeral name marker survive every
sweep. -/
theorem c3_gc_sweep (now : Nat) (hs : List (String × Nat)) (cg : List (Nat × Nat)) :
    (∀ name fn, (name, fn) ∈ hs → (name, fn) ∉ (gcSweep now hs cg).1 →
        strStartsWith name tempNameHead = true ∧
        ∃ ts, getAssoc cg fn = some ts ∧ now - ts > TEMP_FUNCTION_CG)
    ∧ (∀ name fn, (name, fn) ∈ hs → strStartsWith name tempNameHead = false →
        (name, fn) ∈ (gcSweep now hs cg).1)
    ∧ (∀ (cg2 : List (Nat × Nat)) (h : JSVal) (t k : Nat),
        (getAssoc (cgTouch cg2 h t) k).isSome = (getAssoc cg2 k).isSome) :=
  ⟨gcSweep_delete_cond now hs cg cg (fun _ => Or.inl rfl),
   gcSweep_keeps_durable now hs cg,
   fun cg2 h t k => cgTouch_preserves_keys cg2 h t k⟩

/-! ## C9: the explicit-transfer marker (legacy module src/unnamed/part_000) -/

/-- Key marking an object as transferred (part_000:127). -/
def TRANSFERRED_KEY : String := "_wwt_is_transferred_"

/-- The `transfer` helper (part_000:152-166): sets the marker key on an
object and returns it; non-objects are rejected with an error.  In this
value model a string-keyed expando property is representable on plain
objects, which is the case the claims exercise (`typeof null` is also
`'object'`, and the assignment then throws). -/
def transfer (v : JSVal) : Except String JSVal :=
  if typeofIsObject v then
    match v with
    | vObj fields => .ok (vObj (setAssoc fields TRANSFERRED_KEY (vBool true)))
    | vNull => .error "TypeError: Cannot set properties of null"
    | other => .ok other
  else
    .error "Only objects can be transferred"

/-- `isTransferred` (part_000:168-171): the marker test
`typeof object === 'object' && object[TRANSFERRED_KEY] === true`. -/
def isTransferred (v : JSVal) : Except String Bool :=
  if typeofIsObject v then do
    let m ← getProp v TRANSFERRED_KEY
    pure (match m with | .vBool true => true | _ => false)
  else
    pure false

/-- The legacy import proxy transfer list `args.filter(isTransferred)`
(part_000:115), with the predicate able to throw. -/
def legacyTransferList : List JSVal → Except String (List JSVal)
  | [] => .ok []
  | a :: rest => do
      let b ← isTransferred a
      let rest2 ← legacyTransferList rest
      pure (if b then a :: rest2 else rest2)

/-- C9 (amended): an argument tagged by the `transfer` helper is included in
the *legacy* import proxy transfer list, which is computed from the marker
alone; the marker path is not combined with automatic scanning anywhere. -/
theorem c9_legacy_marker (fields : List (String × JSVal))
    (rest rest2 : List JSVal) (h : legacyTransferList rest = .ok rest2) :
    ∃ m, transfer (vObj fields) = .ok m
      ∧ isTransferred m = .ok true
      ∧ legacyTransferList (m :: rest) = .ok (m :: rest2) := by
  have his : isTransferred (vObj (setAssoc fields TRANSFERRED_KEY (vBool true)))
      = .ok true := by
    show Except.ok (match getField (setAssoc fields TRANSFERRED_KEY (vBool true))
      TRANSFERRED_KEY with | .vBool true => true | _ => false) = .ok true
    unfold JSVal.getField
    rw [getAssoc_setAssoc_self]
  refine ⟨vObj (setAssoc fields TRANSFERRED_KEY (vBool true)), rfl, his, ?_⟩
  unfold legacyTransferList
  rw [his, h]
  rfl

/-- C9 counterexample: `transfer` tags a plain object, the legacy proxy
would include it, but the current index.ts proxy computes its transfer list
with `getTransferableObjects` alone (index.ts:228), which returns the empty
list for `[transfer(\x7b\x7d)]` — the heap encodes the one-element argument
array whose element is the tagged plain object `\x7b _wwt_is_transferred_:
true \x7d` — so the tagged argument is *not* in the outgoing transfer
list. -/
theorem c9_counterexample :
    transfer (vObj []) = .ok (vObj [(TRANSFERRED_KEY, vBool true)])
    ∧ getTransferableObjects [ScanNode.arr [1], ScanNode.obj [2], ScanNode.prim] 0 = []
    ∧ legacyTransferList [vObj [(TRANSFERRED_KEY, vBool true)]]
        = .ok [vObj [(TRANSFERRED_KEY, vBool true)]] :=
  ⟨rfl, rfl, rfl⟩


/-! ## Witnesses: each theorem with a hypothesis applied at a concrete input -/

/-- Witness for C1: the `double`-style handler returning `42` (truthy)
settles the caller's promise exactly once, with the value. -/
theorem c1_roundtrip_witness :
    (roundTrip (fun _ _ => .ok (vNum 42)) 0 (RouterState.mk [] [] [])
        (RouterState.mk [("double", vFun 0)] [] []) "double" [vNum 21] 7 99
        (fun _ => "s")).1 = [Settle.res 99 (vNum 42)] :=
  ((c1_roundtrip (fun _ _ => .ok (vNum 42)) 0 (RouterState.mk [] [] [])
      (RouterState.mk [("double", vFun 0)] [] []) "double" [vNum 21] 7 99
      (fun _ => "s") 0 rfl (by decide)).1).trans rfl

/-- Witness for C3: a sweep at time 40000 deletes the stale ephemeral entry
and keeps the durable one. -/
theorem c3_gc_sweep_witness :
    ("keep", 2) ∈ (gcSweep 40000 [("temp_fn_x", 1), ("keep", 2)] [(1, 0)]).1
    ∧ (strStartsWith "temp_fn_x" tempNameHead = true
       ∧ ∃ ts, getAssoc [(1, 0)] 1 = some ts ∧ 40000 - ts > TEMP_FUNCTION_CG) :=
  ⟨(c3_gc_sweep 40000 [("temp_fn_x", 1), ("keep", 2)] [(1, 0)]).2.1 "keep" 2
      (by decide) (by decide),
   (c3_gc_sweep 40000 [("temp_fn_x", 1), ("keep", 2)] [(1, 0)]).1 "temp_fn_x" 1
      (by decide) (by decide)⟩

/-- Witness for C5: a request to a registered handler produces exactly one
response envelope. -/
theorem c5_one_response_witness :
    ∃ rf jf, (processRequest (fun _ _ => .ok (vNum 1)) 0
        (RouterState.mk [("f", vFun 0)] [] []) 7 (vStr "f") []).1
      = [CommMsg.response 7 rf jf] :=
  (c5_one_response (fun _ _ => .ok (vNum 1)) 0 (RouterState.mk [("f", vFun 0)] [] [])
    7 (vStr "f") [] (fun _ _ _ h => Except.noConfusion h)).1

/-- Witness for C6: a response for an unknown correlation id is a no-op. -/
theorem c6_response_noop_witness :
    processResponse (RouterState.mk [] [] []) 7 (some (vNum 1)) none
      = ([], RouterState.mk [] [] []) :=
  (c6_response_noop (RouterState.mk [] [] []) 7 (some (vNum 1)) none).1 rfl

/-- Witness for C7: calling the unexported name `unknown` yields one failure
response naming it, and the caller sees one rejection carrying it. -/
theorem c7_no_handler_witness :
    processRequest (fun _ _ => .ok vUndef) 0 (RouterState.mk [] [] []) 7
        (vStr "unknown") []
      = ([CommMsg.response 7 none
            (some (vStr ("[BUG] No handler for type " ++ "unknown")))],
         RouterState.mk [] [] [])
    ∧ (processResponse (RouterState.mk [] [(7, 99)] []) 7 none
          (some (vStr ("[BUG] No handler for type " ++ "unknown")))).1
        = [Settle.rej 99 (vStr ("[BUG] No handler for type " ++ "unknown"))] :=
  c7_no_handler (fun _ _ => .ok vUndef) 0 (RouterState.mk [] [] [])
    (RouterState.mk [] [(7, 99)] []) 7 99 "unknown" [] rfl rfl

/-- Witness for C8: a concrete Function Token unwraps to the `wrapper` stub
capturing its name. -/
theorem c8_unwrap_witness :
    unwrapArg (vObj [(TRANSFERRED_FUNCTION_KEY, vBool true), ("name", vStr "cb")])
      = .ok (vWrapperStub (vStr "cb")) := by
  obtain ⟨b, hb, hfalse, htrue⟩ := c8_unwrap
    (vObj [(TRANSFERRED_FUNCTION_KEY, vBool true), ("name", vStr "cb")])
    (by intro h; cases h)
  have hchk : checkToken
      (vObj [(TRANSFERRED_FUNCTION_KEY, vBool true), ("name", vStr "cb")])
      = .ok true := rfl
  rw [hchk] at hb
  have hbt : b = true := (Except.ok.inj hb).symm
  exact (htrue hbt).1

/-- Witness for C9: a tagged empty object is in the legacy transfer list. -/
theorem c9_legacy_marker_witness :
    ∃ m, transfer (vObj []) = .ok m
      ∧ isTransferred m = .ok true
      ∧ legacyTransferList [m] = .ok [m] :=
  c9_legacy_marker [] [] [] rfl

/-- Witness for C10: a handler throwing the plain string `boom` produces a
response with `reject: undefined`; the caller deletes the entry without
settling it. -/
theorem c10_falsy_reject_witness :
    (processRequest (fun _ _ => .error (vStr "boom")) 0
        (RouterState.mk [("f", vFun 0)] [] []) 7 (vStr "f") []).1
      = [CommMsg.response 7 none (some vUndef)]
    ∧ processResponse (RouterState.mk [] [(7, 99)] []) 7 none (some vUndef)
        = ([], RouterState.mk [] (delAssoc [(7, 99)] 7) [])
    ∧ getAssoc (delAssoc ([(7, 99)] : List (Nat × Nat)) 7) 7 = none :=
  c10_falsy_reject (fun _ _ => .error (vStr "boom")) 0
    (RouterState.mk [("f", vFun 0)] [] []) (RouterState.mk [] [(7, 99)] [])
    7 99 (vStr "f") [] (vFun 0) (vStr "boom") vUndef rfl rfl rfl rfl rfl rfl

/-! ## C4: correctness of the Transferable Scanner

Specification vocabulary: `objAt` says a heap id holds a value of object
type (`typeof === 'object'` and non-null), `transfAt` that it holds a
transferable instance, and `Reaches` is reachability from a root along the
enumerable children of arrays and plain objects only — the scanner treats
transferable instances as leaves, so nothing inside them is reachable. -/

/-- Nodes the scanner descends into or returns (everything but a primitive). -/
def isObjNode : ScanNode → Bool
  | ScanNode.prim => false
  | _ => true

/-- The heap id holds a non-primitive node. -/
def objAt (heap : List ScanNode) (i : Nat) : Prop :=
  ∃ n, heap[i]? = some n ∧ isObjNode n = true

/-- The heap id holds a transferable instance. -/
def transfAt (heap : List ScanNode) (i : Nat) : Prop :=
  ∃ cs, heap[i]? = some (ScanNode.transferable cs)

/-- Reachability along array elements and enumerable object values. -/
inductive Reaches (heap : List ScanNode) : Nat → Nat → Prop where
  | refl (i : Nat) : Reaches heap i i
  | arrStep {a b c : Nat} {cs : List Nat} :
      Reaches heap a b → heap[b]? = some (ScanNode.arr cs) → c ∈ cs →
      Reaches heap a c
  | objStep {a b c : Nat} {cs : List Nat} :
      Reaches heap a b → heap[b]? = some (ScanNode.obj cs) → c ∈ cs →
      Reaches heap a c

theorem Reaches.trans {heap : List ScanNode} {a b c : Nat}
    (hab : Reaches heap a b) (hbc : Reaches heap b c) : Reaches heap a c := by
  induction hbc with
  | refl => exact hab
  | arrStep _ hb hc ih => exact Reaches.arrStep ih hb hc
  | objStep _ hb hc ih => exact Reaches.objStep ih hb hc

/-- A visited set is well formed when it has no duplicates and holds only
object-typed ids (the code never adds primitives to the WeakSet). -/
def seenWF (heap : List ScanNode) (seen : List Nat) : Prop :=
  seen.Nodup ∧ ∀ j ∈ seen, objAt heap j

/-- The id `j` has been expanded into the visited set `s`: every
object-typed child of `j` is in `s`. -/
def expandedIn (heap : List ScanNode) (j : Nat) (s : List Nat) : Prop :=
  ∀ cs c, (heap[j]? = some (ScanNode.arr cs) ∨ heap[j]? = some (ScanNode.obj cs)) →
    c ∈ cs → objAt heap c → c ∈ s

theorem expandedIn_mono {heap : List ScanNode} {j : Nat} {s s2 : List Nat}
    (hsub : ∀ x ∈ s, x ∈ s2) (h : expandedIn heap j s) : expandedIn heap j s2 :=
  fun cs c hj hc hobj => hsub c (h cs c hj hc hobj)

/-! Unfolding equations of `scanGo`, one per node shape. -/

theorem scanGo_zero (heap : List ScanNode) (id : Nat) (seen : List Nat) :
    scanGo heap 0 id seen = ([], seen) := rfl

theorem scanGo_outside {heap : List ScanNode} {id : Nat} (fuel : Nat)
    (seen : List Nat) (h : heap[id]? = none) :
    scanGo heap (fuel + 1) id seen = ([], seen) := by
  simp only [scanGo, h]

theorem scanGo_prim {heap : List ScanNode} {id : Nat} (fuel : Nat)
    (seen : List Nat) (h : heap[id]? = some ScanNode.prim) :
    scanGo heap (fuel + 1) id seen = ([], seen) := by
  simp only [scanGo, h]

theorem scanGo_seen {heap : List ScanNode} {id : Nat} {node : ScanNode}
    (fuel : Nat) {seen : List Nat} (h : heap[id]? = some node)
    (hs : id ∈ seen) : scanGo heap (fuel + 1) id seen = ([], seen) := by
  cases node <;> simp only [scanGo, h] <;> rw [if_pos hs]

theorem scanGo_transferable {heap : List ScanNode} {id : Nat} {cs : List Nat}
    (fuel : Nat) {seen : List Nat}
    (h : heap[id]? = some (ScanNode.transferable cs)) (hs : id ∉ seen) :
    scanGo heap (fuel + 1) id seen = ([id], id :: seen) := by
  simp only [scanGo, h]
  rw [if_neg hs]

theorem scanGo_arr {heap : List ScanNode} {id : Nat} {cs : List Nat}
    (fuel : Nat) {seen : List Nat} (h : heap[id]? = some (ScanNode.arr cs))
    (hs : id ∉ seen) :
    scanGo heap (fuel + 1) id seen
      = scanChildren (scanGo heap fuel) cs (id :: seen) := by
  simp only [scanGo, h]
  rw [if_neg hs, foldl_scan_eq_scanChildren]
  simp

theorem scanGo_obj {heap : List ScanNode} {id : Nat} {cs : List Nat}
    (fuel : Nat) {seen : List Nat} (h : heap[id]? = some (ScanNode.obj cs))
    (hs : id ∉ seen) :
    scanGo heap (fuel + 1) id seen
      = scanChildren (scanGo heap fuel) cs (id :: seen) := by
  simp only [scanGo, h]
  rw [if_neg hs, foldl_scan_eq_scanChildren]
  simp

/-- Specification of one `scanGo` call on `id` with visited set `seen`:
the new visited set extends `seen` by fresh object-typed ids (`pre`), all
reachable from `id` and already expanded; the result lists exactly the
transferable members of `pre`, without duplicates; and `id` itself ends up
visited when it is object-typed. -/
def GoSpec (heap : List ScanNode) (id : Nat) (seen : List Nat)
    (out : List Nat × List Nat) : Prop :=
  ∃ pre, out.2 = pre ++ seen
    ∧ (∀ j ∈ pre, j ∉ seen)
    ∧ pre.Nodup
    ∧ (∀ j ∈ pre, objAt heap j ∧ Reaches heap id j ∧ expandedIn heap j out.2)
    ∧ (∀ t, t ∈ out.1 ↔ t ∈ pre ∧ transfAt heap t)
    ∧ out.1.Nodup
    ∧ (objAt heap id → id ∈ out.2)

/-- Specification of the child loop, relative to the list `cs0` of children
being visited. -/
def CSpec (heap : List ScanNode) (cs0 : List Nat) (seen : List Nat)
    (out : List Nat × List Nat) : Prop :=
  ∃ pre, out.2 = pre ++ seen
    ∧ (∀ j ∈ pre, j ∉ seen)
    ∧ pre.Nodup
    ∧ (∀ j ∈ pre, objAt heap j ∧ (∃ c ∈ cs0, Reaches heap c j)
        ∧ expandedIn heap j out.2)
    ∧ (∀ t, t ∈ out.1 ↔ t ∈ pre ∧ transfAt heap t)
    ∧ out.1.Nodup
    ∧ (∀ c ∈ cs0, objAt heap c → c ∈ out.2)

theorem objAt_lt {heap : List ScanNode} {j : Nat} (h : objAt heap j) :
    j < heap.length := by
  obtain ⟨n, hn, _⟩ := h
  exact (List.getElem?_eq_some.mp hn).1

theorem seenWF_length_le {heap : List ScanNode} {seen : List Nat}
    (hwf : seenWF heap seen) : seen.length ≤ heap.length := by
  have h1 : seen.toFinset.card = seen.length := List.toFinset_card_of_nodup hwf.1
  have h2 : seen.toFinset ⊆ Finset.range heap.length := by
    intro x hx
    simp only [List.mem_toFinset] at hx
    exact Finset.mem_range.mpr (objAt_lt (hwf.2 x hx))
  have h3 := Finset.card_le_card h2
  rw [Finset.card_range, h1] at h3
  exact h3

theorem scanChildren_spec (heap : List ScanNode) (fuel : Nat)
    (hGo : ∀ id seen, seenWF heap seen →
      heap.length + 1 - seen.length ≤ fuel →
      GoSpec heap id seen (scanGo heap fuel id seen)
        ∧ seenWF heap (scanGo heap fuel id seen).2) :
    ∀ (cs0 : List Nat) (seen : List Nat), seenWF heap seen →
      heap.length + 1 - seen.length ≤ fuel →
      CSpec heap cs0 seen (scanChildren (scanGo heap fuel) cs0 seen)
        ∧ seenWF heap (scanChildren (scanGo heap fuel) cs0 seen).2 := by
  intro cs0
  induction cs0 with
  | nil =>
      intro seen hwf _
      exact ⟨⟨[], rfl, by simp, List.nodup_nil, by simp, by simp [scanChildren],
        List.nodup_nil, by simp⟩, hwf⟩
  | cons c cs ih =>
      intro seen hwf hfuel
      obtain ⟨hgo, hwf1⟩ := hGo c seen hwf hfuel
      obtain ⟨pre1, hseen1, hnew1, hnd1, hall1, hres1, hrnd1, hvis1⟩ := hgo
      have hlen1 : seen.length ≤ (scanGo heap fuel c seen).2.length := by
        rw [hseen1, List.length_append]
        omega
      have hfuel1 : heap.length + 1 - (scanGo heap fuel c seen).2.length ≤ fuel :=
        le_trans (Nat.sub_le_sub_left hlen1 _) hfuel
      obtain ⟨hcs, hwf2⟩ := ih (scanGo heap fuel c seen).2 hwf1 hfuel1
      obtain ⟨pre2, hseen2, hnew2, hnd2, hall2, hres2, hrnd2, hvis2⟩ := hcs
      have houtc : scanChildren (scanGo heap fuel) (c :: cs) seen
          = ((scanGo heap fuel c seen).1
              ++ (scanChildren (scanGo heap fuel) cs (scanGo heap fuel c seen).2).1,
             (scanChildren (scanGo heap fuel) cs (scanGo heap fuel c seen).2).2) := rfl
      have hsub12 : ∀ x ∈ (scanGo heap fuel c seen).2,
          x ∈ (scanChildren (scanGo heap fuel) cs (scanGo heap fuel c seen).2).2 := by
        intro x hx
        rw [hseen2, List.mem_append]
        exact Or.inr hx
      refine ⟨⟨pre2 ++ pre1, ?_, ?_, ?_, ?_, ?_, ?_, ?_⟩, ?_⟩
      · rw [houtc]
        show (scanChildren (scanGo heap fuel) cs (scanGo heap fuel c seen).2).2
          = (pre2 ++ pre1) ++ seen
        rw [hseen2, hseen1, List.append_assoc]
      · intro j hj
        rcases List.mem_append.mp hj with hj2 | hj1
        · intro hjs
          exact hnew2 j hj2 (by rw [hseen1, List.mem_append]; exact Or.inr hjs)
        · exact hnew1 j hj1
      · refine List.Nodup.append hnd2 hnd1 ?_
        intro j hj2 hj1
        exact hnew2 j hj2 (by rw [hseen1, List.mem_append]; exact Or.inl hj1)
      · intro j hj
        rcases List.mem_append.mp hj with hj2 | hj1
        · obtain ⟨hobj, ⟨c2, hc2, hr⟩, hexp⟩ := hall2 j hj2
          exact ⟨hobj, ⟨c2, List.mem_cons_of_mem _ hc2, hr⟩,
            by rw [houtc]; exact hexp⟩
        · obtain ⟨hobj, hr, hexp⟩ := hall1 j hj1
          refine ⟨hobj, ⟨c, List.mem_cons_self _ _, hr⟩, ?_⟩
          rw [houtc]
          exact expandedIn_mono hsub12 hexp
      · intro t
        rw [houtc]
        show t ∈ (scanGo heap fuel c seen).1
            ++ (scanChildren (scanGo heap fuel) cs (scanGo heap fuel c seen).2).1
          ↔ t ∈ pre2 ++ pre1 ∧ transfAt heap t
        rw [List.mem_append, hres1, hres2, List.mem_append]
        constructor
        · rintro (⟨h1, ht⟩ | ⟨h2, ht⟩)
          · exact ⟨Or.inr h1, ht⟩
          · exact ⟨Or.inl h2, ht⟩
        · rintro ⟨h12, ht⟩
          rcases h12 with h2 | h1
          · exact Or.inr ⟨h2, ht⟩
          · exact Or.inl ⟨h1, ht⟩
      · rw [houtc]
        show ((scanGo heap fuel c seen).1
          ++ (scanChildren (scanGo heap fuel) cs (scanGo heap fuel c seen).2).1).Nodup
        refine List.Nodup.append hrnd1 hrnd2 ?_
        intro t ht1 ht2
        have hp1 : t ∈ pre1 := ((hres1 t).mp ht1).1
        have hp2 : t ∈ pre2 := ((hres2 t).mp ht2).1
        exact hnew2 t hp2 (by rw [hseen1, List.mem_append]; exact Or.inl hp1)
      · intro c2 hc2 hobj
        rw [houtc]
        show c2 ∈ (scanChildren (scanGo heap fuel) cs (scanGo heap fuel c seen).2).2
        rcases List.mem_cons.mp hc2 with hh | ht
        · subst hh
          exact hsub12 c2 (hvis1 hobj)
        · exact hvis2 c2 ht hobj
      · rw [houtc]
        exact hwf2

/-- The composite (array / plain object) case of the `scanGo` spec, shared
between the two constructors. -/
theorem scanGo_spec_composite (heap : List ScanNode) (fuel id : Nat)
    (seen cs : List Nat)
    (hof : heap[id]? = some (ScanNode.arr cs) ∨ heap[id]? = some (ScanNode.obj cs))
    (hs : id ∉ seen)
    (hchild : CSpec heap cs (id :: seen)
        (scanChildren (scanGo heap fuel) cs (id :: seen))
      ∧ seenWF heap (scanChildren (scanGo heap fuel) cs (id :: seen)).2) :
    GoSpec heap id seen (scanGo heap (fuel + 1) id seen)
      ∧ seenWF heap (scanGo heap (fuel + 1) id seen).2 := by
  have hout : scanGo heap (fuel + 1) id seen
      = scanChildren (scanGo heap fuel) cs (id :: seen) := by
    rcases hof with h | h
    · exact scanGo_arr fuel h hs
    · exact scanGo_obj fuel h hs
  have hobjid : objAt heap id := by
    rcases hof with h | h
    · exact ⟨_, h, rfl⟩
    · exact ⟨_, h, rfl⟩
  have hnt : ¬ transfAt heap id := by
    rintro ⟨cs0, hT⟩
    rcases hof with h | h <;> rw [h] at hT <;> cases Option.some.inj hT
  have hstep : ∀ c ∈ cs, Reaches heap id c := by
    intro c hc
    rcases hof with h | h
    · exact Reaches.arrStep (Reaches.refl id) h hc
    · exact Reaches.objStep (Reaches.refl id) h hc
  obtain ⟨⟨pre, hseen, hnew, hnd, hall, hres, hrnd, hvis⟩, hwf2⟩ := hchild
  rw [hout]
  refine ⟨⟨pre ++ [id], ?_, ?_, ?_, ?_, ?_, hrnd, ?_⟩, hwf2⟩
  · rw [hseen]
    simp [List.append_assoc]
  · intro j hj
    rcases List.mem_append.mp hj with hjp | hji
    · intro hjs
      exact hnew j hjp (List.mem_cons_of_mem _ hjs)
    · rw [List.mem_singleton] at hji
      subst hji
      exact hs
  · refine List.Nodup.append hnd (List.nodup_singleton id) ?_
    intro j hjp hji
    rw [List.mem_singleton] at hji
    subst hji
    exact hnew j hjp (List.mem_cons_self _ _)
  · intro j hj
    rcases List.mem_append.mp hj with hjp | hji
    · obtain ⟨hobj, ⟨c, hc, hr⟩, hexp⟩ := hall j hjp
      exact ⟨hobj, Reaches.trans (hstep c hc) hr, hexp⟩
    · rw [List.mem_singleton] at hji
      subst hji
      refine ⟨hobjid, Reaches.refl j, ?_⟩
      intro cs2 c hcs2 hc hobj
      have hcseq : cs2 = cs := by
        rcases hcs2 with h2 | h2 <;> rcases hof with h | h <;> rw [h] at h2 <;>
          first
            | exact (ScanNode.arr.inj (Option.some.inj h2)).symm
            | exact (ScanNode.obj.inj (Option.some.inj h2)).symm
            | cases Option.some.inj h2
      subst hcseq
      exact hvis c hc hobj
  · intro t
    rw [hres t]
    constructor
    · rintro ⟨hp, ht⟩
      exact ⟨List.mem_append.mpr (Or.inl hp), ht⟩
    · rintro ⟨hp, ht⟩
      rcases List.mem_append.mp hp with hp | hi
      · exact ⟨hp, ht⟩
      · rw [List.mem_singleton] at hi
        subst hi
        exact absurd ht hnt
  · intro _
    rw [hseen]
    exact List.mem_append.mpr (Or.inr (List.mem_cons_self _ _))

/-- The main induction: with enough fuel, every `scanGo` call meets its
specification. -/
theorem scanGo_spec (heap : List ScanNode) :
    ∀ (fuel : Nat) (id : Nat) (seen : List Nat), seenWF heap seen →
      heap.length + 1 - seen.length ≤ fuel →
      GoSpec heap id seen (scanGo heap fuel id seen)
        ∧ seenWF heap (scanGo heap fuel id seen).2 := by
  intro fuel
  induction fuel with
  | zero =>
      intro id seen hwf hfuel
      have hle := seenWF_length_le hwf
      omega
  | succ fuel ih =>
      intro id seen hwf hfuel
      cases hid : heap[id]? with
      | none =>
          rw [scanGo_outside fuel seen hid]
          refine ⟨⟨[], rfl, by simp, List.nodup_nil, by simp, by simp,
            List.nodup_nil, ?_⟩, hwf⟩
          rintro ⟨n, hn, _⟩
          rw [hid] at hn
          cases hn
      | some node =>
          by_cases hseen : id ∈ seen
          · rw [scanGo_seen fuel hid hseen]
            exact ⟨⟨[], rfl, by simp, List.nodup_nil, by simp, by simp,
              List.nodup_nil, fun _ => hseen⟩, hwf⟩
          · have hfuel1 : heap.length + 1 - (id :: seen).length ≤ fuel := by
              simp only [List.length_cons]
              omega
            have hwfcons : objAt heap id → seenWF heap (id :: seen) := by
              intro hobj
              refine ⟨List.nodup_cons.mpr ⟨hseen, hwf.1⟩, ?_⟩
              intro j hj
              rcases List.mem_cons.mp hj with rfl | hj2
              · exact hobj
              · exact hwf.2 j hj2
            cases node with
            | prim =>
                rw [scanGo_prim fuel seen hid]
                refine ⟨⟨[], rfl, by simp, List.nodup_nil, by simp, by simp,
                  List.nodup_nil, ?_⟩, hwf⟩
                rintro ⟨n, hn, hno⟩
                rw [hid] at hn
                rw [← Option.some.inj hn] at hno
                cases hno
            | transferable cs =>
                rw [scanGo_transferable fuel hid hseen]
                refine ⟨⟨[id], rfl, ?_, List.nodup_singleton id, ?_, ?_,
                  List.nodup_singleton id, fun _ => List.mem_cons_self _ _⟩, ?_⟩
                · intro j hj
                  rw [List.mem_singleton] at hj
                  subst hj
                  exact hseen
                · intro j hj
                  rw [List.mem_singleton] at hj
                  subst hj
                  refine ⟨⟨_, hid, rfl⟩, Reaches.refl j, ?_⟩
                  intro cs2 c hcs2 _ _
                  rcases hcs2 with h2 | h2 <;> rw [hid] at h2 <;>
                    cases Option.some.inj h2
                · intro t
                  constructor
                  · intro ht
                    rw [List.mem_singleton] at ht
                    subst ht
                    exact ⟨List.mem_singleton.mpr rfl, ⟨cs, hid⟩⟩
                  · rintro ⟨hp, _⟩
                    exact hp
                · exact hwfcons ⟨_, hid, rfl⟩
            | arr cs =>
                exact scanGo_spec_composite heap fuel id seen cs (Or.inl hid) hseen
                  (scanChildren_spec heap fuel ih cs (id :: seen)
                    (hwfcons ⟨_, hid, rfl⟩) hfuel1)
            | obj cs =>
                exact scanGo_spec_composite heap fuel id seen cs (Or.inr hid) hseen
                  (scanChildren_spec heap fuel ih cs (id :: seen)
                    (hwfcons ⟨_, hid, rfl⟩) hfuel1)

/-- C4: the Transferable Scanner returns exactly the set of transferable
resources contained anywhere inside the input graph: membership in the
result coincides with reachability (through arrays and the enumerable
values of plain objects, with transferable instances treated as leaves)
to a transferable node, each such node appears exactly once even when
shared or on a cycle, a primitive input contributes nothing, a transferable
input is returned as a single leaf, and an input containing no
transferables yields the empty list. -/
theorem c4_scanner (heap : List ScanNode) (root : Nat) :
    (getTransferableObjects heap root).Nodup
    ∧ (∀ t, t ∈ getTransferableObjects heap root ↔
        (Reaches heap root t ∧ transfAt heap t))
    ∧ (heap[root]? = some ScanNode.prim → getTransferableObjects heap root = [])
    ∧ (∀ cs, heap[root]? = some (ScanNode.transferable cs) →
        getTransferableObjects heap root = [root])
    ∧ ((∀ t, Reaches heap root t → ¬ transfAt heap t) →
        getTransferableObjects heap root = []) := by
  have hwf0 : seenWF heap [] := ⟨List.nodup_nil, by simp⟩
  have hfuel0 : heap.length + 1 - ([] : List Nat).length ≤ heap.length + 1 := by
    simp
  obtain ⟨⟨pre, hseen, hnew, hnd, hall, hres, hrnd, hvis⟩, hwfend⟩ :=
    scanGo_spec heap (heap.length + 1) root [] hwf0 hfuel0
  have hpre : (scanGo heap (heap.length + 1) root []).2 = pre := by
    rw [hseen, List.append_nil]
  have hreach : ∀ t, Reaches heap root t → objAt heap t →
      t ∈ (scanGo heap (heap.length + 1) root []).2 := by
    intro t hr
    induction hr with
    | refl => exact hvis
    | @arrStep b c cs hab hb hc ih =>
        intro hobj
        have hbpre : b ∈ pre := by
          rw [← hpre]
          exact ih ⟨_, hb, rfl⟩
        obtain ⟨_, _, hexp⟩ := hall b hbpre
        exact hexp cs c (Or.inl hb) hc hobj
    | @objStep b c cs hab hb hc ih =>
        intro hobj
        have hbpre : b ∈ pre := by
          rw [← hpre]
          exact ih ⟨_, hb, rfl⟩
        obtain ⟨_, _, hexp⟩ := hall b hbpre
        exact hexp cs c (Or.inr hb) hc hobj
  have hiff : ∀ t, t ∈ getTransferableObjects heap root ↔
      (Reaches heap root t ∧ transfAt heap t) := by
    intro t
    constructor
    · intro ht
      obtain ⟨hp, htr⟩ := (hres t).mp ht
      obtain ⟨_, hr, _⟩ := hall t hp
      exact ⟨hr, htr⟩
    · rintro ⟨hr, htr⟩
      have hobj : objAt heap t := by
        obtain ⟨cs, hcs⟩ := htr
        exact ⟨_, hcs, rfl⟩
      have hmem := hreach t hr hobj
      rw [hpre] at hmem
      exact (hres t).mpr ⟨hmem, htr⟩
  refine ⟨hrnd, hiff, ?_, ?_, ?_⟩
  · intro h
    unfold getTransferableObjects
    rw [scanGo_prim heap.length [] h]
  · intro cs h
    unfold getTransferableObjects
    rw [scanGo_transferable heap.length h (List.not_mem_nil root)]
  · intro h
    refine List.eq_nil_iff_forall_not_mem.mpr ?_
    intro t ht
    obtain ⟨hr, htr⟩ := (hiff t).mp ht
    exact h t hr htr

/-- Example graph for the C4 witness: node 0 is a plain object whose values
are node 1 (an array listing the transferable node 2 twice), node 2 again,
and node 0 itself (a cycle); node 2 is a transferable holding node 3
(another transferable inside the leaf, hence unreachable). -/
def c4ExHeap : List ScanNode :=
  [ScanNode.obj [1, 2, 0], ScanNode.arr [2, 2],
   ScanNode.transferable [3], ScanNode.transferable []]

/-- Witness for C4: on the shared/cyclic example graph the scan contains
the transferable node 2 (and, being `[2]` by computation, contains it
exactly once while omitting node 3 inside the leaf). -/
theorem c4_scanner_witness :
    2 ∈ getTransferableObjects c4ExHeap 0 :=
  ((c4_scanner c4ExHeap 0).2.1 2).mpr
    ⟨Reaches.objStep (Reaches.refl 0)
        (show c4ExHeap[0]? = some (ScanNode.obj [1, 2, 0]) from rfl)
        (show 2 ∈ [1, 2, 0] by decide),
     ⟨[3], show c4ExHeap[2]? = some (ScanNode.transferable [3]) from rfl⟩⟩

end WWT
